import Mathlib

/-!
Shallow embedding of the attendee-identity and day-aggregation core of
`calendar_agent.py`, together with theorems settling the frozen claims
about its specification.

Strings are modelled as their character lists (`String.data`); the Python
string primitives used by the source (`str.title`, `str.upper`, `str.strip`,
`str.split`, `re.sub` on trailing runs, substring search) are embedded for
ASCII text, which is the alphabet the source's regexes (`[a-z]`, `[A-Z]`,
`\d`) operate on.
-/

namespace CalendarSpec

/-- Model of `o.getD ""`: the effective value of an optional string field, matching the
Python idiom `d.get(key, '')`. -/
def eff (o : Option String) : String := o.getD ""

/-- Characters the source strips from the end of a local part after digits:
`re.sub(r'[._-]+$', '', s)`. -/
def isSepChar (c : Char) : Bool := c = '.' || c = '_' || c = '-'

/-- Quote characters removed by Python `str.strip('"\'')`. -/
def isQuoteChar (c : Char) : Bool := c = '"' || c = Char.ofNat 39

/-- Remove the maximal trailing run of characters satisfying `p`
(`re.sub(r'X+$', '', s)`). -/
def dropTrailing (p : Char → Bool) (l : List Char) : List Char :=
  (l.reverse.dropWhile p).reverse

/-- ASCII model of Python `str.title()`: an alphabetic character is uppercased
when the previous character is not alphabetic and lowercased otherwise. -/
def pyTitleAux : Bool → List Char → List Char
  | _, [] => []
  | prevAlpha, c :: cs =>
    if c.isAlpha then
      (if prevAlpha then c.toLower else c.toUpper) :: pyTitleAux true cs
    else
      c :: pyTitleAux false cs

/-- ASCII model of Python `str.title()`. -/
def pyTitle (l : List Char) : List Char := pyTitleAux false l

/-- ASCII model of Python `str.upper()`. -/
def pyUpper (l : List Char) : List Char := l.map Char.toUpper

/-- ASCII model of Python `str.lower()`. -/
def pyLower (l : List Char) : List Char := l.map Char.toLower

/-- Python `s.split(sep)` for a one-character separator: keeps empty pieces,
`''.split(sep) = ['']`. -/
def splitOnChar (sep : Char) : List Char → List (List Char)
  | [] => [[]]
  | c :: cs =>
    if c = sep then [] :: splitOnChar sep cs
    else
      match splitOnChar sep cs with
      | [] => [[c]]
      | p :: ps => (c :: p) :: ps

/-- Python `' '.join(parts)`. -/
def joinSpace : List (List Char) → List Char
  | [] => []
  | [p] => p
  | p :: ps => p ++ ' ' :: joinSpace ps

/-- Index of the first occurrence of `pat` as a contiguous sublist
(Python `str.find`, with `none` for "not found"). -/
def findSub (pat : List Char) : List Char → Option Nat
  | [] => if pat.isPrefixOf ([] : List Char) then some 0 else none
  | c :: cs =>
    if pat.isPrefixOf (c :: cs) then some 0
    else (findSub pat cs).map (· + 1)

/-- Python `str.strip()` (whitespace at both ends). -/
def pyStrip (l : List Char) : List Char :=
  dropTrailing Char.isWhitespace (l.dropWhile Char.isWhitespace)

/-- Python `str.strip('"\'')`: remove every leading and trailing quote
character. -/
def stripQuoteChars (l : List Char) : List Char :=
  dropTrailing isQuoteChar (l.dropWhile isQuoteChar)

/-! ### The email name heuristic (`_extract_name_from_email`, `_smart_split_name`) -/

/-- Model of `re.search(r'[a-z][A-Z]', s)`: is there a lowercase letter immediately
followed by an uppercase letter? -/
def hasCamelPair : List Char → Bool
  | a :: b :: rest => (a.isLower && b.isUpper) || hasCamelPair (b :: rest)
  | _ => false

/-- Scanner for `re.findall(r'[A-Z][a-z]*|[a-z]+', s)`: `cur` is the match in
progress, reversed. An uppercase letter always opens a new match; a lowercase
letter extends the open match (maximal munch) or opens one; any other
character closes the open match. -/
def camelGo (cur : List Char) : List Char → List (List Char)
  | [] => if cur = [] then [] else [cur.reverse]
  | c :: cs =>
    if c.isUpper then
      (if cur = [] then [] else [cur.reverse]) ++ camelGo [c] cs
    else if c.isLower then
      (if cur = [] then camelGo [c] cs else camelGo (c :: cur) cs)
    else
      (if cur = [] then [] else [cur.reverse]) ++ camelGo [] cs

/-- Model of `re.findall(r'[A-Z][a-z]*|[a-z]+', s)`. -/
def camelParts (l : List Char) : List (List Char) := camelGo [] l

/-- The honorific table `['mr', 'ms', 'dr', 'prof']` of `_smart_split_name`. -/
def honorifics : List (List Char) := [['m','r'], ['m','s'], ['d','r'], ['p','r','o','f']]

/-- The location-token table of `_smart_split_name`. -/
def locationTokens : List (List Char) :=
  [['i','n'], ['s','a','n'], ['l','o','s'], ['n','e','w'],
   ['n','o','r','t','h'], ['s','o','u','t','h'], ['e','a','s','t'], ['w','e','s','t']]

/-- The honorific loop of `_smart_split_name`: first prefix in table order that
starts `nameLower` and leaves trailing characters wins. -/
def honorificHit (nameLower name : List Char) : List (List Char) → Option (List Char)
  | [] => none
  | p :: ps =>
    if p.isPrefixOf nameLower && decide (p.length < name.length) then
      some (pyTitle p ++ ' ' :: pyTitle (name.drop p.length))
    else honorificHit nameLower name ps

/-- The location loop of `_smart_split_name`: for each token in order, if it
occurs in `nameLower`, the whole name is long enough, and the first occurrence
starts after index 2, split there. -/
def locationHit (nameLower name : List Char) : List (List Char) → Option (List Char)
  | [] => none
  | loc :: rest =>
    match findSub loc nameLower with
    | some idx =>
      if decide (loc.length + 3 < name.length) && decide (2 < idx) then
        some (pyTitle (name.take idx) ++ ' ' :: pyTitle (name.drop idx))
      else locationHit nameLower name rest
    | none => locationHit nameLower name rest

/-- Model of `CalendarAgent._smart_split_name`. -/
def smartSplitName (name : List Char) : List Char :=
  if hasCamelPair name then joinSpace (camelParts name)
  else
    match honorificHit (pyLower name) name honorifics with
    | some r => r
    | none =>
      match locationHit (pyLower name) name locationTokens with
      | some r => r
      | none => name

/-- Model of `email.split('@')[0]` followed by the two trailing-run strips: digits, then
separator characters. -/
def strippedLocal (email : List Char) : List Char :=
  dropTrailing isSepChar (dropTrailing Char.isDigit (email.takeWhile (· ≠ '@')))

/-- The pattern dispatch shared by the two `_extract_name_from_email` bodies;
`single` is the single-token branch, which is where the two copies differ. -/
def nameFromLocal (stripped : List Char) (single : List Char → List Char) : List Char :=
  if stripped.contains '.' then
    if (splitOnChar '.' stripped).length = 2 then
      if ((splitOnChar '.' stripped).getD 0 []).length = 1 then
        pyUpper ((splitOnChar '.' stripped).getD 0 []) ++
          ' ' :: pyTitle ((splitOnChar '.' stripped).getD 1 [])
      else
        pyTitle ((splitOnChar '.' stripped).getD 0 []) ++
          ' ' :: pyTitle ((splitOnChar '.' stripped).getD 1 [])
    else joinSpace (((splitOnChar '.' stripped).filter (· ≠ [])).map pyTitle)
  else if stripped.contains '_' then
    joinSpace (((splitOnChar '_' stripped).filter (· ≠ [])).map pyTitle)
  else if stripped.contains '-' then
    joinSpace (((splitOnChar '-' stripped).filter (· ≠ [])).map pyTitle)
  else single stripped

/-- Model of `AttendeeInfo._extract_name_from_email`: single-token branch is plain
`local_part.title()`. -/
def attendeeExtractName (email : List Char) : List Char :=
  if email = [] then ['U','n','k','n','o','w','n']
  else nameFromLocal (strippedLocal email) pyTitle

/-- Model of `CalendarAgent._extract_name_from_email`: single-token branch is
`self._smart_split_name(local_part.title())`. -/
def agentExtractName (email : List Char) : List Char :=
  if email = [] then ['U','n','k','n','o','w','n']
  else nameFromLocal (strippedLocal email) (fun s => smartSplitName (pyTitle s))

/-- String-level wrapper for `AttendeeInfo._extract_name_from_email`. -/
def attendeeExtractNameS (email : String) : String := ⟨attendeeExtractName email.data⟩

/-- String-level wrapper for `CalendarAgent._extract_name_from_email`. -/
def agentExtractNameS (email : String) : String := ⟨agentExtractName email.data⟩

/-- String-level wrapper for the stripped local part. -/
def strippedLocalS (email : String) : String := ⟨strippedLocal email.data⟩

/-! ### `AttendeeInfo` and the per-event builder (`extract_attendee_info`) -/

/-- The `AttendeeInfo` dataclass after `__post_init__` has run. -/
structure AttendeeInfo where
  name : String
  email : String
  display_name : String
  deriving DecidableEq, Repr

/-- Constructing `AttendeeInfo(name=..., email=...)`: `__post_init__` sets
`display_name` to `name` if truthy, else the email-derived name if `email` is
truthy, else `"Unknown"`. -/
def mkAttendeeInfo (name email : String) : AttendeeInfo :=
  { name := name, email := email,
    display_name :=
      if name ≠ "" then name
      else if email ≠ "" then attendeeExtractNameS email
      else "Unknown" }

/-- A raw attendee / organizer record as read from the event payload: each
field is `d.get(key, '')`-accessed, so absent and empty coincide downstream. -/
structure RawAttendee where
  email : Option String
  displayName : Option String
  name : Option String
  cn : Option String
  deriving DecidableEq, Repr

/-- A raw event as seen by `extract_attendee_info`. -/
structure RawEvent where
  organizer : Option RawAttendee
  attendees : List RawAttendee
  deriving DecidableEq, Repr

/-- The name-fallback chain applied to one attendee inside the loop of
`extract_attendee_info`: displayName, then `name`, then `cn`, then the email
heuristic. -/
def chainName (a : RawAttendee) : String :=
  let n0 := eff a.displayName
  let n1 := if n0 = "" then eff a.name else n0
  let n2 := if n1 = "" then eff a.cn else n1
  if n2 = "" then agentExtractNameS (eff a.email) else n2

/-- The attendee loop of `extract_attendee_info`: skip records without a
truthy email, otherwise build an `AttendeeInfo` from the resolved name. -/
def extractAttendeesLoop : List RawAttendee → List AttendeeInfo
  | [] => []
  | a :: rest =>
    if eff a.email = "" then extractAttendeesLoop rest
    else mkAttendeeInfo (chainName a) (eff a.email) :: extractAttendeesLoop rest

/-- The organizer block of `extract_attendee_info`: `event.get('organizer', {})`,
then displayName, then `name`, then — only when an email is present — the
email heuristic. Returns `(organizer_name, organizer_email)`. -/
def organizerOf (ev : RawEvent) : String × String :=
  let oi := ev.organizer.getD ⟨none, none, none, none⟩
  let oe := eff oi.email
  let o0 := eff oi.displayName
  let o1 := if o0 = "" then eff oi.name else o0
  let o2 := if o1 = "" ∧ oe ≠ "" then agentExtractNameS oe else o1
  (o2, oe)

/-- Model of `CalendarAgent.extract_attendee_info`: returns the attendee list, the
organizer name and the organizer email. -/
def extractAttendeeInfo (ev : RawEvent) : List AttendeeInfo × String × String :=
  (extractAttendeesLoop ev.attendees, (organizerOf ev).1, (organizerOf ev).2)

/-! ### The From-header parser (inside `get_contact_name_from_gmail_api`) -/

/-- Parsing one From-header value against a known email, as done per header in
`get_contact_name_from_gmail_api`: the `"Display Name <addr>"` layout takes the
text before `<`, trims it, and — if non-empty and different from the known
email — returns it with all surrounding quote characters removed; the
`"addr (Display Name)"` layout takes the text inside the first parentheses. -/
def parseFromHeader (fromField email : List Char) : Option (List Char) :=
  if fromField.contains '<' && fromField.contains '>' then
    let np := pyStrip (fromField.takeWhile (· ≠ '<'))
    if np ≠ [] && np ≠ email then some (stripQuoteChars np) else none
  else if fromField.contains '(' && fromField.contains ')' then
    let seg := ((fromField.dropWhile (· ≠ '(')).drop 1).takeWhile
      (fun c => c ≠ '(' && c ≠ ')')
    let np := pyStrip seg
    if np ≠ [] && np ≠ email then some np else none
  else none

/-- String-level wrapper for the From-header parse. -/
def parseFromHeaderS (fromField email : String) : Option String :=
  (parseFromHeader fromField.data email.data).map (fun l => ⟨l⟩)

/-! ### Day aggregation (`get_attendee_info_for_day`) -/

/-- A processed meeting as consumed by the aggregation: the fields of
`MeetingInfo` that `get_attendee_info_for_day` reads. `start_time` is the
already-rendered `%H:%M` string, or `none` for a missing start time. -/
structure Meeting where
  meeting_title : String
  attendees : List AttendeeInfo
  organizer_name : String
  organizer_email : String
  start_time : Option String
  deriving DecidableEq, Repr

/-- The per-meeting entry stored under the meeting title in
`meeting_attendee_mapping`. -/
structure MeetingDetail where
  attendees : List (String × String)
  attendee_names : List String
  attendee_emails : List String
  organizer_name : String
  organizer_email : String
  time : String
  deriving DecidableEq, Repr

/-- Insertion-ordered dictionary update (Python `d[k] = v`): an existing key
keeps its position, a new key is appended. -/
def setKey {α : Type} : List (String × α) → String → α → List (String × α)
  | [], k, v => [(k, v)]
  | (k0, v0) :: rest, k, v =>
    if k0 = k then (k0, v) :: rest else (k0, v0) :: setKey rest k v

/-- Python `d.get(k, dflt)`. -/
def getKeyD {α : Type} : List (String × α) → String → α → α
  | [], _, dflt => dflt
  | (k0, v0) :: rest, k, dflt => if k0 = k then v0 else getKeyD rest k dflt

/-- The per-meeting entry (attendee details, display names, non-empty emails,
organizer and rendered time). -/
def mkDetail (m : Meeting) : MeetingDetail :=
  { attendees := m.attendees.map (fun a => (a.display_name, a.email))
    attendee_names := m.attendees.map (·.display_name)
    attendee_emails := (m.attendees.filter (fun a => a.email ≠ "")).map (·.email)
    organizer_name := m.organizer_name
    organizer_email := m.organizer_email
    time := m.start_time.getD "Unknown" }

/-- The inner attendee loop of `get_attendee_info_for_day`: attendees with a
truthy email bump `attendee_frequency` and overwrite `attendee_name_mapping`. -/
def procAtts : List (String × Nat) × List (String × String) → List AttendeeInfo →
    List (String × Nat) × List (String × String)
  | st, [] => st
  | (freq, nameMap), a :: rest =>
    if a.email = "" then procAtts (freq, nameMap) rest
    else
      procAtts (setKey freq a.email (getKeyD freq a.email 0 + 1),
                setKey nameMap a.email a.display_name) rest

/-- The aggregation state: frequency map, email-to-name map, title-to-detail
map. -/
structure AggState where
  freq : List (String × Nat)
  nameMap : List (String × String)
  meetMap : List (String × MeetingDetail)
  deriving DecidableEq, Repr

/-- Processing one meeting inside the aggregation loop. -/
def procMeeting (st : AggState) (m : Meeting) : AggState :=
  let fm := procAtts (st.freq, st.nameMap) m.attendees
  { freq := fm.1, nameMap := fm.2,
    meetMap := setKey st.meetMap m.meeting_title (mkDetail m) }

/-- The meeting loop of `get_attendee_info_for_day`, starting from empty
dictionaries. -/
def aggregate (meetings : List Meeting) : AggState :=
  meetings.foldl procMeeting ⟨[], [], []⟩

/-- Stable descending insertion by count: the new pair goes before the first
existing pair with a smaller-or-equal count it can precede, i.e. after every
pair with a strictly greater count and before equal counts inserted later. -/
def insertDesc (p : String × Nat) : List (String × Nat) → List (String × Nat)
  | [] => [p]
  | q :: qs => if q.2 ≤ p.2 then p :: q :: qs else q :: insertDesc p qs

/-- Stable sort by count descending, the behavior of
`sorted(items, key=lambda x: x[1], reverse=True)` on the insertion-ordered
frequency items. -/
def sortDesc : List (String × Nat) → List (String × Nat)
  | [] => []
  | p :: ps => insertDesc p (sortDesc ps)

/-- The sorted `(email, count)` pairs of the day's frequency dictionary. -/
def sortedFreq (meetings : List Meeting) : List (String × Nat) :=
  sortDesc (aggregate meetings).freq

/-- One entry of `most_frequent_attendees`: display name from the name
mapping (defaulting to the email), email, meeting count. -/
structure FrequentAttendee where
  name : String
  email : String
  meeting_count : Nat
  deriving DecidableEq, Repr

/-- The record built for one `(email, count)` pair of the sorted frequency
list. -/
def mkFrequent (meetings : List Meeting) (p : String × Nat) : FrequentAttendee :=
  { name := getKeyD (aggregate meetings).nameMap p.1 p.1
    email := p.1
    meeting_count := p.2 }

/-- Model of `most_frequent_attendees`: the ten most frequent attendees in sorted
order. -/
def mostFrequent (meetings : List Meeting) : List FrequentAttendee :=
  ((sortedFreq meetings).take 10).map (mkFrequent meetings)

/-- The dictionary returned by `get_attendee_info_for_day`, with one `Option`
field per possible key: the empty-day early return carries only `message`. -/
structure DayAttendeeInfo where
  message : Option String
  date : Option String
  total_meetings : Option Nat
  unique_attendees : Option Nat
  meeting_attendee_details : Option (List (String × MeetingDetail))
  most_frequent_attendees : Option (List FrequentAttendee)
  all_attendee_emails : Option (List String)
  all_attendee_names : Option (List String)
  deriving DecidableEq, Repr

/-- Model of `CalendarAgent.get_attendee_info_for_day`, given the day's processed
meetings: an empty day short-circuits to a message-only dictionary. -/
def getAttendeeInfoForDay (targetDate : String) (meetings : List Meeting) :
    DayAttendeeInfo :=
  if meetings.length = 0 then
    { message := some "No events found for this date"
      date := none, total_meetings := none, unique_attendees := none
      meeting_attendee_details := none, most_frequent_attendees := none
      all_attendee_emails := none, all_attendee_names := none }
  else
    let st := aggregate meetings
    { message := none
      date := some targetDate
      total_meetings := some meetings.length
      unique_attendees := some st.freq.length
      meeting_attendee_details := some st.meetMap
      most_frequent_attendees := some (mostFrequent meetings)
      all_attendee_emails := some (st.freq.map (·.1))
      all_attendee_names := some (st.nameMap.map (·.2)) }

/-! ### Helper lemmas: the heuristic never returns an empty name unless the
stripped local part is empty -/

theorem pyTitleAux_length (b : Bool) (l : List Char) :
    (pyTitleAux b l).length = l.length := by
  induction l generalizing b with
  | nil => rfl
  | cons c cs ih => simp only [pyTitleAux]; split <;> simp [ih]

theorem pyTitle_ne_nil {l : List Char} (h : l ≠ []) : pyTitle l ≠ [] := by
  intro hc
  have hlen := pyTitleAux_length false l
  rw [show pyTitleAux false l = pyTitle l from rfl, hc] at hlen
  exact h (List.length_eq_zero.mp (by simpa using hlen.symm))

theorem joinSpace_ne_nil {ps : List (List Char)} {q : List Char}
    (hq : q ∈ ps) (hqne : q ≠ []) : joinSpace ps ≠ [] := by
  match ps with
  | [] => simp at hq
  | [p] =>
    simp only [List.mem_singleton] at hq
    subst hq
    simpa [joinSpace] using hqne
  | p :: r :: rs => simp [joinSpace]

theorem dropTrailing_exists_not {p : Char → Bool} {l : List Char}
    (h : dropTrailing p l ≠ []) : ∃ a ∈ dropTrailing p l, p a = false := by
  unfold dropTrailing at *
  have hrne : l.reverse.dropWhile p ≠ [] := by
    intro h0; exact h (by simp [h0])
  have hl : 0 < (l.reverse.dropWhile p).length := List.length_pos.mpr hrne
  refine ⟨(l.reverse.dropWhile p).get ⟨0, hl⟩, ?_, ?_⟩
  · exact List.mem_reverse.mpr (List.get_mem _ _ _)
  · have := List.dropWhile_get_zero_not (p := p) l.reverse hl
    simpa using this

theorem splitOnChar_exists_ne {sep : Char} {l : List Char}
    (h : ∃ a ∈ l, a ≠ sep) : ∃ q ∈ splitOnChar sep l, q ≠ [] := by
  induction l with
  | nil => simp at h
  | cons c cs ih =>
    by_cases hc : c = sep
    · have hcs : ∃ a ∈ cs, a ≠ sep := by
        obtain ⟨a, ha, hane⟩ := h
        rcases List.mem_cons.mp ha with rfl | hmem
        · exact absurd hc hane
        · exact ⟨a, hmem, hane⟩
      obtain ⟨q, hq, hqne⟩ := ih hcs
      exact ⟨q, by simp [splitOnChar, hc, hq], hqne⟩
    · simp only [splitOnChar, if_neg hc]
      cases hsp : splitOnChar sep cs with
      | nil => exact ⟨[c], by simp, by simp⟩
      | cons q qs => exact ⟨c :: q, by simp, by simp⟩

theorem camelGo_mem_ne_nil {q : List Char} :
    ∀ (l cur : List Char), q ∈ camelGo cur l → q ≠ [] := by
  intro l
  induction l with
  | nil =>
    intro cur hq
    by_cases hcur : cur = [] <;> simp [camelGo, hcur] at hq
    subst hq
    simpa using hcur
  | cons c cs ih =>
    intro cur hq
    simp only [camelGo] at hq
    split at hq
    · rcases List.mem_append.mp hq with hql | hqr
      · by_cases hcur : cur = [] <;> simp [hcur] at hql
        subst hql; simpa using hcur
      · exact ih [c] hqr
    · split at hq
      · split at hq <;> exact ih _ hq
      · rcases List.mem_append.mp hq with hql | hqr
        · by_cases hcur : cur = [] <;> simp [hcur] at hql
          subst hql; simpa using hcur
        · exact ih [] hqr

theorem camelGo_ne_nil :
    ∀ (l cur : List Char), (cur ≠ [] ∨ ∃ c ∈ l, c.isAlpha) → camelGo cur l ≠ [] := by
  intro l
  induction l with
  | nil =>
    intro cur h
    rcases h with h | h
    · simp [camelGo, h]
    · simp at h
  | cons c cs ih =>
    intro cur h
    simp only [camelGo]
    split
    · intro hc
      exact ih [c] (Or.inl (by simp)) (List.append_eq_nil.mp hc).2
    · split
      · split
        · exact ih [c] (Or.inl (by simp))
        · exact ih _ (Or.inl (by simp))
      · intro hc
        have hcs : camelGo [] cs ≠ [] := by
          rcases h with h | h
          · exact absurd (List.append_eq_nil.mp hc).1 (by simp [h])
          · obtain ⟨a, ha, haa⟩ := h
            rcases List.mem_cons.mp ha with rfl | hmem
            · rename_i hupper hlower
              simp [Char.isAlpha, hupper, hlower] at haa
            · exact ih [] (Or.inr ⟨a, hmem, haa⟩)
        exact hcs (List.append_eq_nil.mp hc).2

theorem hasCamelPair_exists_alpha {l : List Char} (h : hasCamelPair l = true) :
    ∃ c ∈ l, c.isAlpha := by
  induction l with
  | nil => simp [hasCamelPair] at h
  | cons a l ih =>
    cases l with
    | nil => simp [hasCamelPair] at h
    | cons b rest =>
      have h' : (a.isLower && b.isUpper) = true ∨ hasCamelPair (b :: rest) = true := by
        simpa [hasCamelPair] using h
      rcases h' with h1 | h2
      · have h1' : a.isLower = true ∧ b.isUpper = true := by simpa using h1
        exact ⟨a, by simp, by simp [Char.isAlpha, h1'.1]⟩
      · obtain ⟨c, hc, hca⟩ := ih h2
        exact ⟨c, by simp [List.mem_cons.mp hc], hca⟩

theorem honorificHit_ne_nil {nl n r : List Char} :
    ∀ hs, honorificHit nl n hs = some r → r ≠ [] := by
  intro hs
  induction hs with
  | nil => simp [honorificHit]
  | cons p ps ih =>
    intro h
    simp only [honorificHit] at h
    split at h
    · cases h; simp
    · exact ih h

theorem locationHit_ne_nil {nl n r : List Char} :
    ∀ ls, locationHit nl n ls = some r → r ≠ [] := by
  intro ls
  induction ls with
  | nil => simp [locationHit]
  | cons loc rest ih =>
    intro h
    simp only [locationHit] at h
    split at h
    · split at h
      · cases h; simp
      · exact ih h
    · exact ih h

theorem smartSplitName_ne_nil {name : List Char} (h : name ≠ []) :
    smartSplitName name ≠ [] := by
  unfold smartSplitName
  split
  · rename_i hcp
    obtain ⟨c, hc, hca⟩ := hasCamelPair_exists_alpha hcp
    cases hparts : camelParts name with
    | nil => exact absurd hparts (camelGo_ne_nil name [] (Or.inr ⟨c, hc, hca⟩))
    | cons q qs =>
      refine joinSpace_ne_nil (List.mem_cons_self q qs) ?_
      refine camelGo_mem_ne_nil name [] ?_
      show q ∈ camelParts name
      rw [hparts]
      exact List.mem_cons_self q qs
  · cases hh : honorificHit (pyLower name) name honorifics with
    | some r => exact honorificHit_ne_nil honorifics hh
    | none =>
      cases hl : locationHit (pyLower name) name locationTokens with
      | some r => exact locationHit_ne_nil locationTokens hl
      | none => exact h

theorem isSepChar_false_ne {a c : Char} (h : isSepChar a = false) (hc : isSepChar c = true) :
    a ≠ c := by
  intro h0; subst h0; rw [h] at hc; cases hc

theorem nameFromLocal_ne_nil {stripped : List Char} {single : List Char → List Char}
    (h2 : ∃ a ∈ stripped, isSepChar a = false) (h3 : single stripped ≠ []) :
    nameFromLocal stripped single ≠ [] := by
  obtain ⟨a, ha, hasep⟩ := h2
  unfold nameFromLocal
  split
  · split
    · split <;> simp
    · have := @splitOnChar_exists_ne '.' stripped
        ⟨a, ha, isSepChar_false_ne hasep (by simp [isSepChar])⟩
      obtain ⟨q, hq, hqne⟩ := this
      exact joinSpace_ne_nil
        (List.mem_map_of_mem pyTitle (List.mem_filter.mpr ⟨hq, by simpa using hqne⟩))
        (pyTitle_ne_nil hqne)
  · split
    · have := @splitOnChar_exists_ne '_' stripped
        ⟨a, ha, isSepChar_false_ne hasep (by simp [isSepChar])⟩
      obtain ⟨q, hq, hqne⟩ := this
      exact joinSpace_ne_nil
        (List.mem_map_of_mem pyTitle (List.mem_filter.mpr ⟨hq, by simpa using hqne⟩))
        (pyTitle_ne_nil hqne)
    · split
      · have := @splitOnChar_exists_ne '-' stripped
          ⟨a, ha, isSepChar_false_ne hasep (by simp [isSepChar])⟩
        obtain ⟨q, hq, hqne⟩ := this
        exact joinSpace_ne_nil
          (List.mem_map_of_mem pyTitle (List.mem_filter.mpr ⟨hq, by simpa using hqne⟩))
          (pyTitle_ne_nil hqne)
      · exact h3

theorem agentExtractName_ne_nil {email : List Char} (h : strippedLocal email ≠ []) :
    agentExtractName email ≠ [] := by
  unfold agentExtractName
  split
  · simp
  · exact nameFromLocal_ne_nil (dropTrailing_exists_not h)
      (smartSplitName_ne_nil (pyTitle_ne_nil h))

theorem attendeeExtractName_ne_nil {email : List Char} (h : strippedLocal email ≠ []) :
    attendeeExtractName email ≠ [] := by
  unfold attendeeExtractName
  split
  · simp
  · exact nameFromLocal_ne_nil (dropTrailing_exists_not h) (pyTitle_ne_nil h)

theorem string_ne_empty_iff (s : String) : s ≠ "" ↔ s.data ≠ [] := by
  constructor
  · intro h h0
    exact h (by cases s; simpa using congrArg String.mk h0)
  · intro h h0
    subst h0
    simp at h

/-! ### Helper lemmas: dictionaries and the aggregation loop -/

/-- Number of attendees of a list carrying a given email. -/
def countEmail (l : List AttendeeInfo) (e : String) : Nat :=
  (l.filter (fun a => a.email = e)).length

/-- Display name of the last attendee of the list carrying a given email (the
value last written into `attendee_name_mapping` by the loop). -/
def lastDisplay (e : String) : List AttendeeInfo → Option String
  | [] => none
  | a :: rest =>
    match lastDisplay e rest with
    | some x => some x
    | none => if a.email = e then some a.display_name else none

theorem getKeyD_setKey_same {α : Type} (m : List (String × α)) (k : String) (v d : α) :
    getKeyD (setKey m k v) k d = v := by
  induction m with
  | nil => simp [setKey, getKeyD]
  | cons p rest ih =>
    by_cases hk : p.1 = k
    · simp [setKey, getKeyD, hk]
    · simpa [setKey, getKeyD, hk] using ih

theorem getKeyD_setKey_other {α : Type} (m : List (String × α)) {k k' : String}
    (v : α) (d : α) (h : k' ≠ k) : getKeyD (setKey m k v) k' d = getKeyD m k' d := by
  have hkk' : ¬(k = k') := fun h0 => h h0.symm
  induction m with
  | nil => simp [setKey, getKeyD, hkk']
  | cons p rest ih =>
    obtain ⟨k0, v0⟩ := p
    by_cases hk : k0 = k
    · subst hk
      simp [setKey, getKeyD, hkk']
    · by_cases hk' : k0 = k'
      · subst hk'
        simp [setKey, getKeyD, hk]
      · simp [setKey, getKeyD, hk, hk', ih]

theorem procAtts_freq (l : List AttendeeInfo) :
    ∀ (freq : List (String × Nat)) (nameMap : List (String × String)) (e : String),
      e ≠ "" →
      getKeyD (procAtts (freq, nameMap) l).1 e 0 = getKeyD freq e 0 + countEmail l e := by
  induction l with
  | nil => intro freq nameMap e _; simp [procAtts, countEmail]
  | cons a rest ih =>
    intro freq nameMap e he
    by_cases hae : a.email = ""
    · have hne : ¬(a.email = e) := fun h0 => he (by rw [← h0, hae])
      rw [show procAtts (freq, nameMap) (a :: rest) = procAtts (freq, nameMap) rest by
        simp [procAtts, hae]]
      rw [ih freq nameMap e he,
        show countEmail (a :: rest) e = countEmail rest e by
          simp [countEmail, List.filter_cons, hne]]
    · by_cases haee : a.email = e
      · rw [show procAtts (freq, nameMap) (a :: rest) =
            procAtts (setKey freq a.email (getKeyD freq a.email 0 + 1),
              setKey nameMap a.email a.display_name) rest by simp [procAtts, hae]]
        rw [ih _ _ e he, haee, getKeyD_setKey_same]
        simp [countEmail, List.filter_cons, haee]
        omega
      · rw [show procAtts (freq, nameMap) (a :: rest) =
            procAtts (setKey freq a.email (getKeyD freq a.email 0 + 1),
              setKey nameMap a.email a.display_name) rest by simp [procAtts, hae]]
        rw [ih _ _ e he, getKeyD_setKey_other _ _ _ (fun h0 => haee h0.symm)]
        simp [countEmail, List.filter_cons, haee]

theorem procAtts_nameMap (l : List AttendeeInfo) :
    ∀ (freq : List (String × Nat)) (nameMap : List (String × String)) (e : String)
      (d : String), e ≠ "" →
      getKeyD (procAtts (freq, nameMap) l).2 e d =
        (lastDisplay e l).getD (getKeyD nameMap e d) := by
  induction l with
  | nil => intro freq nameMap e d _; simp [procAtts, lastDisplay]
  | cons a rest ih =>
    intro freq nameMap e d he
    by_cases hae : a.email = ""
    · have hne : ¬(a.email = e) := by rw [hae]; exact fun h0 => he h0.symm
      rw [show procAtts (freq, nameMap) (a :: rest) = procAtts (freq, nameMap) rest by
        simp [procAtts, hae]]
      rw [ih _ _ e d he]
      cases hld : lastDisplay e rest <;> simp [lastDisplay, hld, hne]
    · by_cases haee : a.email = e
      · rw [show procAtts (freq, nameMap) (a :: rest) =
            procAtts (setKey freq a.email (getKeyD freq a.email 0 + 1),
              setKey nameMap a.email a.display_name) rest by simp [procAtts, hae]]
        rw [ih _ _ e d he]
        rw [haee, getKeyD_setKey_same]
        cases hld : lastDisplay e rest <;> simp [lastDisplay, hld, haee]
      · rw [show procAtts (freq, nameMap) (a :: rest) =
            procAtts (setKey freq a.email (getKeyD freq a.email 0 + 1),
              setKey nameMap a.email a.display_name) rest by simp [procAtts, hae]]
        rw [ih _ _ e d he]
        rw [getKeyD_setKey_other _ _ _ (fun h0 => haee h0.symm)]
        cases hld : lastDisplay e rest <;> simp [lastDisplay, hld, haee]

/-! ### Helper lemmas: the stable descending sort -/

theorem insertDesc_perm (p : String × Nat) (l : List (String × Nat)) :
    List.Perm (insertDesc p l) (p :: l) := by
  induction l with
  | nil => simp [insertDesc]
  | cons q qs ih =>
    simp only [insertDesc]
    split
    · exact List.Perm.refl _
    · exact (ih.cons q).trans (List.Perm.swap p q qs)

theorem sortDesc_perm (l : List (String × Nat)) : List.Perm (sortDesc l) l := by
  induction l with
  | nil => simp [sortDesc]
  | cons p ps ih => exact (insertDesc_perm p (sortDesc ps)).trans (ih.cons p)

theorem insertDesc_pairwise (p : String × Nat) (l : List (String × Nat))
    (h : l.Pairwise (fun a b => b.2 ≤ a.2)) :
    (insertDesc p l).Pairwise (fun a b => b.2 ≤ a.2) := by
  induction l with
  | nil => simp [insertDesc]
  | cons q qs ih =>
    simp only [insertDesc]
    split
    · rename_i hle
      refine List.Pairwise.cons ?_ h
      intro b hb
      rcases List.mem_cons.mp hb with rfl | hb'
      · exact hle
      · exact le_trans (List.rel_of_pairwise_cons h hb') hle
    · rename_i hgt
      have hq : ∀ b ∈ qs, b.2 ≤ q.2 := fun b hb => List.rel_of_pairwise_cons h hb
      refine List.Pairwise.cons ?_ (ih (List.Pairwise.of_cons h))
      intro b hb
      have hb' := (insertDesc_perm p qs).mem_iff.mp hb
      rcases List.mem_cons.mp hb' with rfl | hb''
      · exact Nat.le_of_lt (Nat.lt_of_not_le hgt)
      · exact hq b hb''

theorem sortDesc_pairwise (l : List (String × Nat)) :
    (sortDesc l).Pairwise (fun a b => b.2 ≤ a.2) := by
  induction l with
  | nil => simp [sortDesc]
  | cons p ps ih => exact insertDesc_pairwise p (sortDesc ps) ih

theorem filter_insertDesc (p : String × Nat) (l : List (String × Nat)) (c : Nat) :
    (insertDesc p l).filter (fun q => q.2 = c) =
      if p.2 = c then p :: l.filter (fun q => q.2 = c)
      else l.filter (fun q => q.2 = c) := by
  induction l with
  | nil => simp [insertDesc, List.filter_cons]
  | cons q qs ih =>
    simp only [insertDesc]
    split
    · rename_i hle
      by_cases hpc : p.2 = c <;> simp [List.filter_cons, hpc]
    · rename_i hgt
      have hqc : ¬(q.2 = c) ∨ ¬(p.2 = c) := by
        by_cases hpc : p.2 = c
        · left
          intro h0
          exact hgt (by omega)
        · right
          exact hpc
      by_cases hpc : p.2 = c
      · rcases hqc with hqc | hqc
        · simp [List.filter_cons, hqc, ih, hpc]
        · exact absurd hpc hqc
      · by_cases hqc2 : q.2 = c <;> simp [List.filter_cons, hqc2, ih, hpc]

theorem filter_sortDesc (l : List (String × Nat)) (c : Nat) :
    (sortDesc l).filter (fun q => q.2 = c) = l.filter (fun q => q.2 = c) := by
  induction l with
  | nil => simp [sortDesc]
  | cons p ps ih =>
    simp only [sortDesc, filter_insertDesc, List.filter_cons]
    by_cases hpc : p.2 = c <;> simp [hpc, ih]

theorem mem_keys_setKey {α : Type} {m : List (String × α)} {k x : String} {v : α}
    (h : x ∈ (setKey m k v).map Prod.fst) : x ∈ m.map Prod.fst ∨ x = k := by
  induction m with
  | nil => simpa [setKey] using h
  | cons p rest ih =>
    obtain ⟨k0, v0⟩ := p
    by_cases hk : k0 = k
    · subst hk
      refine Or.inl ?_
      simpa [setKey] using h
    · simp only [setKey, if_neg hk, List.map_cons, List.mem_cons] at h
      rcases h with rfl | h'
      · exact Or.inl (by simp)
      · rcases ih h' with h'' | h''
        · exact Or.inl (by simp [h''])
        · exact Or.inr h''

theorem nodupKeys_setKey {α : Type} {m : List (String × α)} (k : String) (v : α)
    (h : (m.map Prod.fst).Nodup) : ((setKey m k v).map Prod.fst).Nodup := by
  induction m with
  | nil => simp [setKey]
  | cons p rest ih =>
    obtain ⟨k0, v0⟩ := p
    simp only [List.map_cons, List.nodup_cons] at h
    by_cases hk : k0 = k
    · subst hk
      simpa [setKey, List.nodup_cons] using h
    · simp only [setKey, if_neg hk, List.map_cons, List.nodup_cons]
      refine ⟨?_, ih h.2⟩
      intro hmem
      rcases mem_keys_setKey hmem with h' | h'
      · exact h.1 h'
      · exact hk h'

theorem nodupKeys_procAtts (l : List AttendeeInfo) :
    ∀ (freq : List (String × Nat)) (nameMap : List (String × String)),
      (freq.map Prod.fst).Nodup → ((procAtts (freq, nameMap) l).1.map Prod.fst).Nodup := by
  induction l with
  | nil => intro freq nameMap h; simpa [procAtts] using h
  | cons a rest ih =>
    intro freq nameMap h
    by_cases hae : a.email = ""
    · rw [show procAtts (freq, nameMap) (a :: rest) = procAtts (freq, nameMap) rest by
        simp [procAtts, hae]]
      exact ih freq nameMap h
    · rw [show procAtts (freq, nameMap) (a :: rest) =
          procAtts (setKey freq a.email (getKeyD freq a.email 0 + 1),
            setKey nameMap a.email a.display_name) rest by simp [procAtts, hae]]
      exact ih _ _ (nodupKeys_setKey _ _ h)

theorem nodupKeys_aggregate_aux (meetings : List Meeting) :
    ∀ st : AggState, (st.freq.map Prod.fst).Nodup →
      ((meetings.foldl procMeeting st).freq.map Prod.fst).Nodup := by
  induction meetings with
  | nil => intro st h; simpa using h
  | cons m rest ih =>
    intro st h
    simp only [List.foldl_cons]
    exact ih _ (nodupKeys_procAtts m.attendees st.freq st.nameMap h)

theorem nodupKeys_aggregate (meetings : List Meeting) :
    (((aggregate meetings).freq).map Prod.fst).Nodup :=
  nodupKeys_aggregate_aux meetings ⟨[], [], []⟩ (by simp)

theorem pair_sublist_take {α : Type} {a b : α} :
    ∀ (l : List α) (n : Nat), List.Sublist [a, b] l → l.Nodup → b ∈ l.take n →
      List.Sublist [a, b] (l.take n) := by
  intro l
  induction l with
  | nil => intro n hs _ hb; simp at hb
  | cons hd tl ih =>
    intro n hs hnd hb
    cases n with
    | zero => simp at hb
    | succ m =>
      rw [List.take_succ_cons] at hb ⊢
      have hhd : hd ∉ tl := (List.nodup_cons.mp hnd).1
      rcases List.cons_sublist_cons'.mp hs with hs' | ⟨rfl, hs'⟩
      · have hbtl : b ∈ tl := hs'.subset (by simp)
        have hbne : b ≠ hd := fun h0 => hhd (h0 ▸ hbtl)
        have hb' : b ∈ tl.take m := by
          rcases List.mem_cons.mp hb with h0 | h0
          · exact absurd h0 hbne
          · exact h0
        exact List.sublist_cons_of_sublist hd (ih m hs' (List.nodup_cons.mp hnd).2 hb')
      · have hbtl : b ∈ tl := hs'.subset (by simp)
        have hbne : b ≠ a := fun h0 => hhd (h0 ▸ hbtl)
        have hb' : b ∈ tl.take m := by
          rcases List.mem_cons.mp hb with h0 | h0
          · exact absurd h0 hbne
          · exact h0
        exact List.cons_sublist_cons.mpr (List.singleton_sublist.mpr hb')

/-! ### Fixtures used by witnesses and counterexamples -/

/-- An attendee record whose email local part is all digits. -/
def rawDigitsOnly : RawAttendee := ⟨some "123@example.com", none, none, none⟩

/-- An event carrying only the all-digits attendee. -/
def evDigitsOnly : RawEvent := ⟨none, [rawDigitsOnly]⟩

/-- An event with no organizer record at all. -/
def evNoOrganizer : RawEvent := ⟨none, []⟩

/-! ### Claim theorems -/

/-- C1, counterexample: the builder run on an event whose only attendee has
email `123@example.com` (non-empty local part `123`) constructs exactly one
`AttendeeInfo`, and its `display_name` is the empty string — so the claimed
invariant "displayName is always non-empty" fails on the code. -/
theorem claim1_counterexample :
    ((extractAttendeeInfo evDigitsOnly).1.map (fun a => a.display_name)) = [""] := by
  decide

/-- C1 (amended): every `AttendeeInfo` whose name is non-empty, or whose email
is empty, or whose email local part is still non-empty after stripping
trailing digits and separators, has a non-empty `display_name`; and for every
email with a non-empty stripped local part both email-name heuristics return a
non-empty string. (The unamended claim fails exactly when the email is
non-empty but its local part strips to nothing, e.g. `123@example.com`.) -/
theorem display_name_nonempty_unless_stripped_empty (name email : String)
    (h : name ≠ "" ∨ email = "" ∨ strippedLocalS email ≠ "") :
    (mkAttendeeInfo name email).display_name ≠ "" ∧
      (strippedLocalS email ≠ "" →
        agentExtractNameS email ≠ "" ∧ attendeeExtractNameS email ≠ "") := by
  have hagent : strippedLocalS email ≠ "" → agentExtractNameS email ≠ "" := by
    intro hst
    exact (string_ne_empty_iff _).mpr
      (agentExtractName_ne_nil ((string_ne_empty_iff _).mp hst))
  have hatt : strippedLocalS email ≠ "" → attendeeExtractNameS email ≠ "" := by
    intro hst
    exact (string_ne_empty_iff _).mpr
      (attendeeExtractName_ne_nil ((string_ne_empty_iff _).mp hst))
  refine ⟨?_, fun hst => ⟨hagent hst, hatt hst⟩⟩
  simp only [mkAttendeeInfo]
  split
  · assumption
  · split
    · rename_i hname hemail
      refine hatt ?_
      rcases h with h | h | h
      · exact absurd h hname
      · exact absurd h hemail
      · exact h
    · decide

/-- C1, witness for the amended theorem at `name = ""`,
`email = "jane.doe@x.com"`. -/
theorem display_name_nonempty_witness :
    (mkAttendeeInfo "" "jane.doe@x.com").display_name ≠ "" ∧
      (strippedLocalS "jane.doe@x.com" ≠ "" →
        agentExtractNameS "jane.doe@x.com" ≠ "" ∧
          attendeeExtractNameS "jane.doe@x.com" ≠ "") :=
  display_name_nonempty_unless_stripped_empty "" "jane.doe@x.com"
    (Or.inr (Or.inr (by decide)))

/-- C2 (code bug): the single-token branch title-cases the local part before
calling `_smart_split_name`, which destroys the lowercase-uppercase transition,
so `johnSmith` resolves to `Johnsmith`, not the documented `John Smith`; the
camel split inside `_smart_split_name` itself would produce `john Smith`. -/
theorem camel_case_local_part_not_split :
    agentExtractNameS "johnSmith@example.com" = "Johnsmith" ∧
      agentExtractNameS "johnSmith@example.com" ≠ "John Smith" ∧
      smartSplitName "johnSmith".data = "john Smith".data := by
  decide

/-- C5, counterexample: aggregating an empty day returns the "no events"
message but carries no `unique_attendees` entry at all — in particular it does
not report a count equal to `0`. -/
theorem claim5_counterexample :
    (getAttendeeInfoForDay "2024-01-15" []).message =
        some "No events found for this date" ∧
      (getAttendeeInfoForDay "2024-01-15" []).unique_attendees ≠ some 0 := by
  decide

/-- C5 (amended): aggregating an empty sequence of events returns (not raises)
a dictionary whose only entry is the "no events" message; the attendee
statistics, including `uniqueAttendeeCount`, are omitted entirely rather than
reported as zero. -/
theorem empty_day_message_only (d : String) :
    getAttendeeInfoForDay d [] =
      { message := some "No events found for this date", date := none,
        total_meetings := none, unique_attendees := none,
        meeting_attendee_details := none, most_frequent_attendees := none,
        all_attendee_emails := none, all_attendee_names := none } := rfl

/-- C7, counterexample: for an event with no organizer record (hence neither
email nor any name field), the extracted organizer name is the empty string,
not the literal `"Unknown"`. -/
theorem claim7_counterexample :
    (extractAttendeeInfo evNoOrganizer).2.1 = "" ∧
      (extractAttendeeInfo evNoOrganizer).2.1 ≠ "Unknown" := by
  decide

/-- C7 (amended): for every event whose organizer record has neither an email
nor any name field, the resolved organizer display name is the empty string
(the `"Unknown"` fallback lives only in `AttendeeInfo` construction, which the
organizer path does not use). -/
theorem organizer_name_empty_when_no_fields (ev : RawEvent)
    (h1 : eff (ev.organizer.getD ⟨none, none, none, none⟩).displayName = "")
    (h2 : eff (ev.organizer.getD ⟨none, none, none, none⟩).name = "")
    (h3 : eff (ev.organizer.getD ⟨none, none, none, none⟩).email = "") :
    (extractAttendeeInfo ev).2.1 = "" ∧ (extractAttendeeInfo ev).2.2 = "" := by
  unfold extractAttendeeInfo organizerOf
  simp [h1, h2, h3]

/-- C7, witness for the amended theorem at the organizer-free event. -/
theorem organizer_name_empty_witness :
    (extractAttendeeInfo evNoOrganizer).2.1 = "" ∧
      (extractAttendeeInfo evNoOrganizer).2.2 = "" :=
  organizer_name_empty_when_no_fields evNoOrganizer (by decide) (by decide) (by decide)

/-- C3: when an email occurs exactly once in each of two meetings, with the
earlier occurrence displayed as `A` and the later as `B`, the day aggregate
counts it twice and maps it to `B` — the later write wins. -/
theorem frequency_two_and_last_name_wins (m1 m2 : Meeting) (e A B : String)
    (he : e ≠ "")
    (h1 : countEmail m1.attendees e = 1)
    (h2 : countEmail m2.attendees e = 1)
    (hA : lastDisplay e m1.attendees = some A)
    (hB : lastDisplay e m2.attendees = some B) :
    getKeyD (aggregate [m1, m2]).freq e 0 = 2 ∧
      getKeyD (aggregate [m1, m2]).nameMap e "" = B := by
  have hfreq : (aggregate [m1, m2]).freq =
      (procAtts ((procAtts (([] : List (String × Nat)), ([] : List (String × String)))
        m1.attendees).1,
        (procAtts (([] : List (String × Nat)), ([] : List (String × String)))
          m1.attendees).2) m2.attendees).1 := rfl
  have hnm : (aggregate [m1, m2]).nameMap =
      (procAtts ((procAtts (([] : List (String × Nat)), ([] : List (String × String)))
        m1.attendees).1,
        (procAtts (([] : List (String × Nat)), ([] : List (String × String)))
          m1.attendees).2) m2.attendees).2 := rfl
  constructor
  · rw [hfreq, procAtts_freq m2.attendees _ _ e he, procAtts_freq m1.attendees _ _ e he,
      h1, h2]
    simp [getKeyD]
  · rw [hnm, procAtts_nameMap m2.attendees _ _ e "" he, hB]
    rfl

/-- An attendee record of `attendee@x.com` displayed as `A`. -/
def attA : AttendeeInfo := ⟨"A", "attendee@x.com", "A"⟩

/-- An attendee record of `attendee@x.com` displayed as `B`. -/
def attB : AttendeeInfo := ⟨"B", "attendee@x.com", "B"⟩

/-- First single-attendee meeting fixture. -/
def meetingA : Meeting := ⟨"Meeting 1", [attA], "", "", none⟩

/-- Second single-attendee meeting fixture. -/
def meetingB : Meeting := ⟨"Meeting 2", [attB], "", "", none⟩

/-- C3, witness at the two concrete one-attendee meetings. -/
theorem frequency_two_witness :
    getKeyD (aggregate [meetingA, meetingB]).freq "attendee@x.com" 0 = 2 ∧
      getKeyD (aggregate [meetingA, meetingB]).nameMap "attendee@x.com" "" = "B" :=
  frequency_two_and_last_name_wins meetingA meetingB "attendee@x.com" "A" "B"
    (by decide) (by decide) (by decide) (by decide) (by decide)

/-- C10: two meetings with the same title leave only the later meeting's
detail entry (attendees, organizer, time) in the per-meeting view, while the
frequency map still counts the attendees of both meetings. -/
theorem duplicate_title_later_meeting_wins (m1 m2 : Meeting)
    (ht : m1.meeting_title = m2.meeting_title) :
    (aggregate [m1, m2]).meetMap = [(m2.meeting_title, mkDetail m2)] ∧
      ∀ e, e ≠ "" → getKeyD (aggregate [m1, m2]).freq e 0 =
        countEmail m1.attendees e + countEmail m2.attendees e := by
  constructor
  · have hmm : (aggregate [m1, m2]).meetMap =
        setKey (setKey [] m1.meeting_title (mkDetail m1)) m2.meeting_title
          (mkDetail m2) := rfl
    rw [hmm, ht]
    simp [setKey]
  · intro e he
    have hfreq : (aggregate [m1, m2]).freq =
        (procAtts ((procAtts (([] : List (String × Nat)), ([] : List (String × String)))
          m1.attendees).1,
          (procAtts (([] : List (String × Nat)), ([] : List (String × String)))
            m1.attendees).2) m2.attendees).1 := rfl
    rw [hfreq, procAtts_freq m2.attendees _ _ e he, procAtts_freq m1.attendees _ _ e he]
    simp [getKeyD]

/-- First meeting fixture with the duplicated title. -/
def meetingSync1 : Meeting := ⟨"Sync", [attA], "Olga One", "o1@x.com", some "09:00"⟩

/-- Second meeting fixture with the duplicated title. -/
def meetingSync2 : Meeting := ⟨"Sync", [attB], "Omar Two", "o2@x.com", some "10:00"⟩

/-- C10, witness at two concrete same-title meetings. -/
theorem duplicate_title_witness :
    (aggregate [meetingSync1, meetingSync2]).meetMap =
        [("Sync", mkDetail meetingSync2)] ∧
      getKeyD (aggregate [meetingSync1, meetingSync2]).freq "attendee@x.com" 0 =
        countEmail meetingSync1.attendees "attendee@x.com" +
          countEmail meetingSync2.attendees "attendee@x.com" :=
  ⟨(duplicate_title_later_meeting_wins meetingSync1 meetingSync2 rfl).1,
   (duplicate_title_later_meeting_wins meetingSync1 meetingSync2 rfl).2
     "attendee@x.com" (by decide)⟩

/-- C6: the built attendee list is exactly the email-bearing raw records, in
payload order, each resolved through the name chain — and a record whose email
is absent never makes it into that list (and resolution is total, so nothing
fails). -/
theorem attendees_filtered_in_order (ev : RawEvent) :
    (extractAttendeeInfo ev).1 =
        (ev.attendees.filter (fun a => eff a.email ≠ "")).map
          (fun a => mkAttendeeInfo (chainName a) (eff a.email)) ∧
      ∀ a : RawAttendee, a.email = none →
        a ∉ ev.attendees.filter (fun a => eff a.email ≠ "") := by
  obtain ⟨org, atts⟩ := ev
  constructor
  · show extractAttendeesLoop atts = _
    induction atts with
    | nil => rfl
    | cons a rest ih =>
      by_cases hae : eff a.email = "" <;>
        simp [extractAttendeesLoop, hae, List.filter_cons, ih]
  · intro a ha hmem
    rw [List.mem_filter] at hmem
    have := hmem.2
    simp [eff, ha] at this

/-- A raw attendee with an explicit display name. -/
def rawJane : RawAttendee := ⟨some "jane.doe@x.com", some "Jane Doe", none, none⟩

/-- A raw attendee with no email at all. -/
def rawNoEmail : RawAttendee := ⟨none, some "Ghost", none, none⟩

/-- A raw attendee carrying only the `cn` fallback field. -/
def rawBob : RawAttendee := ⟨some "bob@x.com", none, none, some "Bobby"⟩

/-- An event mixing attendees with and without emails. -/
def evMixed : RawEvent := ⟨none, [rawJane, rawNoEmail, rawBob]⟩

/-- C6, witness at the mixed event: the equation holds and the email-less
record is excluded. -/
theorem attendees_filtered_witness :
    (extractAttendeeInfo evMixed).1 =
        (evMixed.attendees.filter (fun a => eff a.email ≠ "")).map
          (fun a => mkAttendeeInfo (chainName a) (eff a.email)) ∧
      rawNoEmail ∉ evMixed.attendees.filter (fun a => eff a.email ≠ "") :=
  ⟨(attendees_filtered_in_order evMixed).1,
   (attendees_filtered_in_order evMixed).2 rawNoEmail rfl⟩

/-- C8, counterexample: a From-header whose quoted display part restates the
known email does not yield absent — the emptiness/equality check runs before
quote stripping, so the bare email is returned; and stripping removes every
surrounding quote character, not a single layer. -/
theorem claim8_counterexample :
    parseFromHeaderS "\"john@x.com\" <john@x.com>" "john@x.com" =
        some "john@x.com" ∧
      parseFromHeaderS "\"\"Bob\"\" <b@x.com>" "b@x.com" = some "Bob" := by
  decide

/-- C8 (amended): for the `"Display Name <addr>"` layout, the text before `<`
is trimmed and then — before any quote stripping — checked to be non-empty and
different from the known email; only if that check passes is the text returned
with all surrounding quote characters removed, otherwise the parse is
absent. -/
theorem from_header_check_before_quote_strip (fromField email : List Char)
    (h1 : fromField.contains '<' = true) (h2 : fromField.contains '>' = true) :
    (parseFromHeader fromField email = none ↔
        pyStrip (fromField.takeWhile (· ≠ '<')) = [] ∨
          pyStrip (fromField.takeWhile (· ≠ '<')) = email) ∧
      (pyStrip (fromField.takeWhile (· ≠ '<')) ≠ [] →
        pyStrip (fromField.takeWhile (· ≠ '<')) ≠ email →
        parseFromHeader fromField email =
          some (stripQuoteChars (pyStrip (fromField.takeWhile (· ≠ '<'))))) := by
  unfold parseFromHeader
  rw [h1, h2]
  generalize pyStrip (fromField.takeWhile (· ≠ '<')) = np
  by_cases ha : np = [] <;> by_cases hb : np = email <;> simp [ha, hb]

/-- C8, witness for the amended theorem at a plain well-formed header. -/
theorem from_header_witness :
    (parseFromHeader ("John <j@x.com>".data) ("j@x.com".data) = none ↔
        pyStrip (("John <j@x.com>".data).takeWhile (· ≠ '<')) = [] ∨
          pyStrip (("John <j@x.com>".data).takeWhile (· ≠ '<')) = "j@x.com".data) ∧
      (pyStrip (("John <j@x.com>".data).takeWhile (· ≠ '<')) ≠ [] →
        pyStrip (("John <j@x.com>".data).takeWhile (· ≠ '<')) ≠ "j@x.com".data →
        parseFromHeader ("John <j@x.com>".data) ("j@x.com".data) =
          some (stripQuoteChars
            (pyStrip (("John <j@x.com>".data).takeWhile (· ≠ '<'))))) :=
  from_header_check_before_quote_strip ("John <j@x.com>".data) ("j@x.com".data)
    (by decide) (by decide)

/-- The many-dots rule exactly as the claim words it: title-case each
dot-separated part, empty parts included, and join with a single space. -/
def claimedDotJoin (email : String) : String :=
  ⟨joinSpace ((splitOnChar '.' (strippedLocal email.data)).map pyTitle)⟩

/-- C9, counterexample: for the local part `a..b` (three dot-separated parts,
one empty) the code drops the empty part before joining and returns `A B`,
while the claim's "title-case each dot-separated part and join with a single
space" yields `A  B`. -/
theorem claim9_counterexample :
    agentExtractNameS "a..b@x.com" = "A B" ∧
      claimedDotJoin "a..b@x.com" = "A  B" ∧
      agentExtractNameS "a..b@x.com" ≠ claimedDotJoin "a..b@x.com" := by
  decide

/-- C9 (amended): when the stripped local part contains a dot: with exactly
two parts, a one-character first part gives `"<Initial-uppercased>
<Last-titlecased>"` and any other first part gives both parts title-cased
joined by a space; with any other number of parts, the empty parts are dropped
and the rest are title-cased and joined with a single space. -/
theorem dot_split_name_rules (email : List Char)
    (hd : (strippedLocal email).contains '.' = true) :
    ((splitOnChar '.' (strippedLocal email)).length = 2 →
        (((splitOnChar '.' (strippedLocal email)).getD 0 []).length = 1 →
          agentExtractName email =
            pyUpper ((splitOnChar '.' (strippedLocal email)).getD 0 []) ++
              ' ' :: pyTitle ((splitOnChar '.' (strippedLocal email)).getD 1 [])) ∧
        (((splitOnChar '.' (strippedLocal email)).getD 0 []).length ≠ 1 →
          agentExtractName email =
            pyTitle ((splitOnChar '.' (strippedLocal email)).getD 0 []) ++
              ' ' :: pyTitle ((splitOnChar '.' (strippedLocal email)).getD 1 []))) ∧
      ((splitOnChar '.' (strippedLocal email)).length ≠ 2 →
        agentExtractName email =
          joinSpace (((splitOnChar '.' (strippedLocal email)).filter (· ≠ [])).map
            pyTitle)) := by
  have hemail : ¬(email = []) := by
    intro h0
    subst h0
    simp [strippedLocal, dropTrailing] at hd
  unfold agentExtractName
  rw [if_neg hemail]
  unfold nameFromLocal
  rw [if_pos hd]
  refine ⟨fun h2 => ?_, fun h2 => ?_⟩
  · rw [if_pos h2]
    refine ⟨fun h1 => ?_, fun h1 => ?_⟩
    · rw [if_pos h1]
    · rw [if_neg h1]
  · rw [if_neg h2]

/-- C9, witness: the initial rule at `j.smith@x.com`. -/
theorem dot_split_witness :
    agentExtractName "j.smith@x.com".data =
      pyUpper ((splitOnChar '.' (strippedLocal "j.smith@x.com".data)).getD 0 []) ++
        ' ' :: pyTitle ((splitOnChar '.' (strippedLocal "j.smith@x.com".data)).getD 1 []) :=
  ((dot_split_name_rules "j.smith@x.com".data (by decide)).1 (by decide)).1 (by decide)

/-- C4: the "most frequent attendees" view is ordered by meeting count
descending, and the sort is stable over the frequency dictionary's insertion
order (first-encounter order): whenever `(x, c)` precedes `(y, c)` there and
`(y, c)` survives the top-ten cut, `x`'s record precedes `y`'s in the view. -/
theorem most_frequent_sorted_and_stable (meetings : List Meeting) (x y : String)
    (c : Nat)
    (hsub : List.Sublist [(x, c), (y, c)] (aggregate meetings).freq)
    (hy : (y, c) ∈ (sortedFreq meetings).take 10) :
    (mostFrequent meetings).Pairwise (fun p q => q.meeting_count ≤ p.meeting_count) ∧
      List.Sublist [mkFrequent meetings (x, c), mkFrequent meetings (y, c)]
        (mostFrequent meetings) := by
  constructor
  · have hsorted := sortDesc_pairwise (aggregate meetings).freq
    have htake : ((sortedFreq meetings).take 10).Pairwise (fun a b => b.2 ≤ a.2) :=
      List.Pairwise.sublist (List.take_sublist 10 _) hsorted
    unfold mostFrequent
    rw [List.pairwise_map]
    exact htake
  · have hfl : List.filter (fun q => q.2 = c) [(x, c), (y, c)] = [(x, c), (y, c)] := by
      simp
    have hfilter : List.Sublist [(x, c), (y, c)]
        ((sortedFreq meetings).filter (fun q => q.2 = c)) := by
      unfold sortedFreq
      rw [filter_sortDesc]
      rw [← hfl]
      exact List.Sublist.filter _ hsub
    have hsorted_sub : List.Sublist [(x, c), (y, c)] (sortedFreq meetings) :=
      hfilter.trans (List.filter_sublist _)
    have hnodup : (sortedFreq meetings).Nodup :=
      ((sortDesc_perm (aggregate meetings).freq).nodup_iff).mpr
        ((nodupKeys_aggregate meetings).of_map)
    have htake10 := pair_sublist_take (sortedFreq meetings) 10 hsorted_sub hnodup hy
    exact htake10.map (mkFrequent meetings)

/-- An attendee record for the stable-ordering witness, first email. -/
def attX : AttendeeInfo := ⟨"X", "x@x.com", "X"⟩

/-- An attendee record for the stable-ordering witness, second email. -/
def attY : AttendeeInfo := ⟨"Y", "y@x.com", "Y"⟩

/-- Meeting fixture containing only `x@x.com`. -/
def meetingX : Meeting := ⟨"MX", [attX], "", "", none⟩

/-- Meeting fixture containing only `y@x.com`. -/
def meetingY : Meeting := ⟨"MY", [attY], "", "", none⟩

/-- C4, witness: two equal-count emails first seen in order `x`, `y` keep that
order in the view. -/
theorem most_frequent_witness :
    (mostFrequent [meetingX, meetingY]).Pairwise
        (fun p q => q.meeting_count ≤ p.meeting_count) ∧
      List.Sublist [mkFrequent [meetingX, meetingY] ("x@x.com", 1),
          mkFrequent [meetingX, meetingY] ("y@x.com", 1)]
        (mostFrequent [meetingX, meetingY]) :=
  most_frequent_sorted_and_stable [meetingX, meetingY] "x@x.com" "y@x.com" 1
    (by decide) (by decide)

end CalendarSpec
